import Mathlib

/-!
# ProposalForm: field validation and form-state handlers

A shallow embedding of `src/Components/ProposalForm.jsx`: the pure function
`validateField` and the four event handlers `handleChange`, `handleFileChange`,
`handleBlur` and `handleSubmit` over the React state
`(formData, errors, touched, isSubmitted)`.

A handler is a closure of one render: it reads the `formData`, `errors` and
`touched` captured by that render and passes whole replacement values to the
setters. `handleChange`, `handleBlur`, ... give the state after a handler that runs
alone from the render of `s`; `setterCalls` and `renderBatch` give the state after
several handlers that run from the same render, where the queued setter calls are
applied in order and the last value passed to a setter is the one kept.

Modelling conventions.
* A JavaScript string is a Lean `String`; `length` is counted in UTF-16 code units
  (`jsLength`), as `String.prototype.length` does. The classes `\s`, `\S`, `\d` and
  the literals `@` and `.` are decided per character; a character outside the Basic
  Multilingual Plane is two surrogate code units, both in `\S` and neither a digit,
  `@` nor `.`, so matching per character and per code unit agree.
* A regular expression literal `/^ ... $/` without flags is a `RegExp` term and
  `RegExp.test` decides whether the whole input belongs to its language.
* The five text inputs carry strings and the file input carries `null`,
  `undefined` or a `File`; `Field.Val` records this typing.
* A plain JavaScript object keyed by field names (`errors`, `touched`) is a
  function `Field → Option α`; `none` is an absent key.
-/

set_option linter.constructorNameAsVariable false

namespace ProposalForm

/-! ## JavaScript strings and regular expressions -/

/-- ECMAScript `WhiteSpace` and `LineTerminator` code points: the class `\s` of
regular expressions, and the characters removed by `String.prototype.trim`. -/
def isJsWhiteSpace (c : Char) : Bool :=
  let n := c.toNat
  n == 0x09 || n == 0x0A || n == 0x0B || n == 0x0C || n == 0x0D || n == 0x20 ||
  n == 0xA0 || n == 0x1680 || (0x2000 ≤ n && n ≤ 0x200A) || n == 0x2028 ||
  n == 0x2029 || n == 0x202F || n == 0x205F || n == 0x3000 || n == 0xFEFF

/-- The class `\S`. -/
def isNonSpace (c : Char) : Bool := !isJsWhiteSpace c

/-- The class `\d` (ASCII digits only, as in ECMAScript). -/
def isJsDigit (c : Char) : Bool :=
  let n := c.toNat
  0x30 ≤ n && n ≤ 0x39

/-- Number of UTF-16 code units of a character. -/
def utf16Units (c : Char) : Nat := if c.toNat < 0x10000 then 1 else 2

/-- The `length` property of a JavaScript string: its number of UTF-16 code units. -/
def jsLength (s : String) : Nat := (s.data.map utf16Units).sum

/-- Characters left after removing leading and trailing white space. -/
def trimChars (l : List Char) : List Char :=
  ((l.dropWhile isJsWhiteSpace).reverse.dropWhile isJsWhiteSpace).reverse

/-- The method `String.prototype.trim`. -/
def jsTrim (s : String) : String := String.mk (trimChars s.data)

/-- Regular expressions over characters, as far as the literals of the component
need them: character classes, concatenation, alternation and Kleene star. -/
inductive RegExp where
  | never : RegExp
  | empty : RegExp
  | cls (p : Char → Bool) : RegExp
  | alt (a b : RegExp) : RegExp
  | seq (a b : RegExp) : RegExp
  | star (a : RegExp) : RegExp

namespace RegExp

/-- A literal character. -/
def chr (c : Char) : RegExp := cls (fun d => d == c)

/-- The quantifier `+`. -/
def plus (a : RegExp) : RegExp := seq a (star a)

/-- Whether the expression accepts the empty input. -/
def nullable : RegExp → Bool
  | never => false
  | empty => true
  | cls _ => false
  | alt a b => a.nullable || b.nullable
  | seq a b => a.nullable && b.nullable
  | star _ => true

/-- What remains to be matched after reading the character `c`. -/
def deriv : RegExp → Char → RegExp
  | never, _ => never
  | empty, _ => never
  | cls p, c => if p c then empty else never
  | alt a b, c => alt (a.deriv c) (b.deriv c)
  | seq a b, c =>
      if a.nullable then alt (seq (a.deriv c) b) (b.deriv c) else seq (a.deriv c) b
  | star a, c => seq (a.deriv c) (star a)

/-- Whole-input matching on a list of characters. -/
def testChars : RegExp → List Char → Bool
  | r, [] => r.nullable
  | r, c :: cs => testChars (r.deriv c) cs

/-- The method `RegExp.prototype.test` for a literal anchored by `^` and `$`. -/
def test (r : RegExp) (s : String) : Bool := testChars r s.data

/-- The language of a regular expression. -/
inductive Matches : RegExp → List Char → Prop
  | empty : Matches RegExp.empty []
  | cls (p : Char → Bool) (c : Char) (h : p c = true) : Matches (RegExp.cls p) [c]
  | altL (a b : RegExp) (s : List Char) (h : Matches a s) : Matches (RegExp.alt a b) s
  | altR (a b : RegExp) (s : List Char) (h : Matches b s) : Matches (RegExp.alt a b) s
  | seq (a b : RegExp) (s t : List Char) (hs : Matches a s) (ht : Matches b t) :
      Matches (RegExp.seq a b) (s ++ t)
  | starNil (a : RegExp) : Matches (RegExp.star a) []
  | starCons (a : RegExp) (s t : List Char) (hs : Matches a s)
      (ht : Matches (RegExp.star a) t) : Matches (RegExp.star a) (s ++ t)

end RegExp

/-- The literal `/^\S+@\S+\.\S+$/`. -/
def emailPattern : RegExp :=
  .seq (.plus (.cls isNonSpace))
    (.seq (.chr '@')
      (.seq (.plus (.cls isNonSpace))
        (.seq (.chr '.') (.plus (.cls isNonSpace)))))

/-- The literal `/^\d*$/`. -/
def digitsPattern : RegExp := .star (.cls isJsDigit)

/-! ## Data model -/

/-- The keys of `formData`, in the order of the object literal. -/
inductive Field where
  | name | email | phone | githubTasks | preference1 | pdf1
  deriving DecidableEq, Repr, Fintype

/-- A `File` object; only its declared content type is read. -/
structure File where
  type : String
  deriving DecidableEq, Repr

/-- What `formData.pdf1` can hold: the initial `null`, `files[0]` of an empty
selection (`undefined`), or a selected file. -/
inductive FileSlot where
  | null
  | undefined
  | file (f : File)
  deriving DecidableEq, Repr

/-- The type of the value stored under each key of `formData`. -/
@[reducible] def Field.Val : Field → Type
  | .name => String
  | .email => String
  | .phone => String
  | .githubTasks => String
  | .preference1 => String
  | .pdf1 => FileSlot

/-- The `formData` record. -/
structure FormData where
  name : String
  email : String
  phone : String
  githubTasks : String
  preference1 : String
  pdf1 : FileSlot
  deriving DecidableEq, Repr

/-- Property access `formData[field]`. -/
def FormData.get (d : FormData) : (field : Field) → field.Val
  | .name => d.name
  | .email => d.email
  | .phone => d.phone
  | .githubTasks => d.githubTasks
  | .preference1 => d.preference1
  | .pdf1 => d.pdf1

/-- The object spread `{ ...formData, [field]: value }`. -/
def FormData.set (d : FormData) : (field : Field) → field.Val → FormData
  | .name, v => { d with name := v }
  | .email, v => { d with email := v }
  | .phone, v => { d with phone := v }
  | .githubTasks, v => { d with githubTasks := v }
  | .preference1, v => { d with preference1 := v }
  | .pdf1, v => { d with pdf1 := v }

/-- The initial `formData` of `useState`, also the value it is reset to. -/
def initialFormData : FormData :=
  { name := "", email := "", phone := "", githubTasks := "", preference1 := "",
    pdf1 := .null }

/-- A JavaScript object whose keys are field names. -/
abbrev Obj (α : Type) := Field → Option α

/-- The empty object `{}`. -/
def Obj.empty {α : Type} : Obj α := fun _ => none

/-- The object spread `{ ...o, [field]: v }`, and the assignment `o[field] = v`. -/
def Obj.set {α : Type} (o : Obj α) (field : Field) (v : α) : Obj α :=
  fun g => if g = field then some v else o g

/-- `Object.keys(formData)`: own keys in insertion order. -/
def formDataKeys : List Field :=
  [.name, .email, .phone, .githubTasks, .preference1, .pdf1]

/-- `Object.keys(o)` for an object keyed by field names (key order is not observed
by the component, only the number of keys). -/
def Obj.keys {α : Type} (o : Obj α) : List Field :=
  formDataKeys.filter (fun g => (o g).isSome)

/-- The React state of the component. -/
structure State where
  formData : FormData
  errors : Obj String
  touched : Obj Bool
  isSubmitted : Bool

/-- The state of the first render. -/
def initialState : State :=
  { formData := initialFormData, errors := Obj.empty, touched := Obj.empty,
    isSubmitted := false }

/-! ## The validator and the handlers -/

/-- `validateField(name, value)`. -/
def validateField : (name : Field) → name.Val → String
  | .name, value => if jsTrim value = "" then "Name is required." else ""
  | .email, value =>
      if emailPattern.test value then "" else "Please enter a valid email address."
  | .phone, value =>
      if !digitsPattern.test value then "Phone number must contain only digits."
      else if jsLength value ≠ 10 then "Phone number must be exactly 10 digits."
      else ""
  | .preference1, value => if value = "" then "Please select a preference." else ""
  | .pdf1, value =>
      match value with
      | .null => ""
      | .undefined => ""
      | .file f => if f.type ≠ "application/pdf" then "Only PDF files are allowed." else ""
  | .githubTasks, _ => ""

/-- `handleChange(e)` with `e.target = { name, value }`. -/
def handleChange (s : State) (name : Field) (value : name.Val) : State :=
  { s with
    formData := s.formData.set name value
    errors := s.errors.set name (validateField name value) }

/-- The expression `files[0]` of a `FileList`. -/
def firstFile : List File → FileSlot
  | [] => .undefined
  | f :: _ => .file f

/-- `handleFileChange(e)` with `e.target = { name: "pdf1", files }`; the handler is
attached to the file input only. -/
def handleFileChange (s : State) (files : List File) : State :=
  { s with
    formData := s.formData.set .pdf1 (firstFile files)
    errors := s.errors.set .pdf1 (validateField .pdf1 (firstFile files)) }

/-- `handleBlur(e)` with `e.target = { name }`. -/
def handleBlur (s : State) (name : Field) : State :=
  { s with
    touched := s.touched.set name true
    errors := s.errors.set name (validateField name (s.formData.get name)) }

/-- The `newErrors` object built by the `reduce` of `handleSubmit`. -/
def submitErrors (d : FormData) : Obj String :=
  formDataKeys.foldl
    (fun acc field =>
      let error := validateField field (d.get field)
      if error ≠ "" then acc.set field error else acc)
    Obj.empty

/-- `handleSubmit(e)`. -/
def handleSubmit (s : State) : State :=
  let newErrors := submitErrors s.formData
  if (Obj.keys newErrors).length = 0 then
    { isSubmitted := true, formData := initialFormData, touched := Obj.empty,
      errors := Obj.empty }
  else
    { s with errors := newErrors }

/-- The events the component reacts to. -/
inductive Event where
  | change (name : Field) (value : name.Val)
  | fileChange (files : List File)
  | blur (name : Field)
  | submit

/-- One event handled to completion. -/
def step (s : State) : Event → State
  | .change name value => handleChange s name value
  | .fileChange files => handleFileChange s files
  | .blur name => handleBlur s name
  | .submit => handleSubmit s

/-- A sequence of events with a re-render after each one: every handler runs from
the render of the state its predecessor produced. -/
def run (s : State) (events : List Event) : State := events.foldl step s

/-- The values a handler passes to the four setters; `none` for a setter it does
not call. -/
structure SetterCalls where
  formData : Option FormData
  errors : Option (Obj String)
  touched : Option (Obj Bool)
  isSubmitted : Option Bool

/-- The queued setter calls applied to the pending state: a called setter replaces
its state variable, the others keep their pending value. -/
def SetterCalls.apply (u : SetterCalls) (pending : State) : State :=
  { formData := u.formData.getD pending.formData
    errors := u.errors.getD pending.errors
    touched := u.touched.getD pending.touched
    isSubmitted := u.isSubmitted.getD pending.isSubmitted }

/-- The setter calls made by the handler of an event when it runs from the render
of `r`: every read of `formData`, `errors` and `touched` is a read of `r`. -/
def setterCalls (r : State) : Event → SetterCalls
  | .change name value =>
      { formData := some (r.formData.set name value)
        errors := some (r.errors.set name (validateField name value))
        touched := none
        isSubmitted := none }
  | .fileChange files =>
      { formData := some (r.formData.set .pdf1 (firstFile files))
        errors := some (r.errors.set .pdf1 (validateField .pdf1 (firstFile files)))
        touched := none
        isSubmitted := none }
  | .blur name =>
      { formData := none
        errors := some (r.errors.set name (validateField name (r.formData.get name)))
        touched := some (r.touched.set name true)
        isSubmitted := none }
  | .submit =>
      let newErrors := submitErrors r.formData
      if (Obj.keys newErrors).length = 0 then
        { formData := some initialFormData
          errors := some Obj.empty
          touched := some Obj.empty
          isSubmitted := some true }
      else
        { formData := none, errors := some newErrors, touched := none, isSubmitted := none }

/-- The handlers of `events` all run from the render of `r`, in order, before the
component renders again. -/
def renderBatch (r : State) (events : List Event) : State :=
  events.foldl (fun pending e => (setterCalls r e).apply pending) r

/-- A session as a sequence of renders, each with the events handled from it. -/
def runRenders (s : State) (batches : List (List Event)) : State :=
  batches.foldl renderBatch s

/-- Every entry present in `errors` is the validator's message for the current
value of its field. -/
def ErrorsAgree (s : State) : Prop :=
  ∀ (field : Field) (msg : String),
    s.errors field = some msg → msg = validateField field (s.formData.get field)

/-! ## Sample states -/

/-- Filling in the form: every input receives a value that passes validation, and
the user leaves the name and email inputs once. -/
def fillIn : List Event :=
  [.change .name "Ada Lovelace", .blur .name, .change .email "ada@example.org",
    .blur .email, .change .phone "0123456789",
    .change .githubTasks "https://github.com/ada/tasks", .change .preference1 "Option 2",
    .fileChange [{ type := "application/pdf" }]]

/-- The form after `fillIn`, before any submission. -/
def filledState : State := run initialState fillIn

/-- The filled-in form with the name erased again. -/
def namelessState : State := handleChange filledState .name ""

/-- The form right after a successful submission. -/
def submittedState : State := handleSubmit filledState

/-- The form is filled in with a re-render after each event; then the submit
handler and the blur handler of the name input both run from the render of the
filled-in form. -/
def staleSession : List (List Event) :=
  fillIn.map (fun e => [e]) ++ [[.submit, .blur .name]]

/-- A short session: type a bad phone number, pick a non-PDF file, leave the email
input, submit, then correct the phone number. -/
def sampleSession : List Event :=
  [.change .phone "12a", .fileChange [{ type := "image/png" }], .blur .email, .submit,
    .change .phone "0123456789"]

/-! ## Regular expressions: the matcher decides the language -/

namespace RegExp

theorem matches_never (s : List Char) : ¬ Matches never s := by
  intro h
  cases h

theorem matches_empty_iff (s : List Char) : Matches empty s ↔ s = [] := by
  constructor
  · intro h
    cases h
    rfl
  · rintro rfl
    exact Matches.empty

theorem matches_cls_iff (p : Char → Bool) (s : List Char) :
    Matches (cls p) s ↔ ∃ c, s = [c] ∧ p c = true := by
  constructor
  · intro h
    cases h with
    | cls _ c hc => exact ⟨c, rfl, hc⟩
  · rintro ⟨c, rfl, hc⟩
    exact Matches.cls p c hc

theorem matches_alt_iff (a b : RegExp) (s : List Char) :
    Matches (alt a b) s ↔ Matches a s ∨ Matches b s := by
  constructor
  · intro h
    cases h with
    | altL _ _ _ h => exact Or.inl h
    | altR _ _ _ h => exact Or.inr h
  · rintro (h | h)
    · exact Matches.altL a b s h
    · exact Matches.altR a b s h

theorem matches_seq_iff (a b : RegExp) (s : List Char) :
    Matches (seq a b) s ↔ ∃ u v, s = u ++ v ∧ Matches a u ∧ Matches b v := by
  constructor
  · intro h
    cases h with
    | seq _ _ u v hu hv => exact ⟨u, v, rfl, hu, hv⟩
  · rintro ⟨u, v, rfl, hu, hv⟩
    exact Matches.seq a b u v hu hv

theorem matches_nil_iff (r : RegExp) : Matches r [] ↔ r.nullable = true := by
  constructor
  · intro h
    generalize hx : ([] : List Char) = x at h
    induction h with
    | empty => rfl
    | cls p c _ => cases hx
    | altL a b s _ ih => simp [nullable, ih hx]
    | altR a b s _ ih => simp [nullable, ih hx]
    | seq a b u v _ _ iha ihb =>
        have huv := List.append_eq_nil.mp hx.symm
        simp [nullable, iha huv.1.symm, ihb huv.2.symm]
    | starNil a => rfl
    | starCons a u v _ _ _ _ => rfl
  · intro h
    induction r with
    | never => simp [nullable] at h
    | empty => exact Matches.empty
    | cls p => simp [nullable] at h
    | alt a b iha ihb =>
        simp only [nullable, Bool.or_eq_true] at h
        rcases h with h | h
        · exact Matches.altL a b [] (iha h)
        · exact Matches.altR a b [] (ihb h)
    | seq a b iha ihb =>
        simp only [nullable, Bool.and_eq_true] at h
        exact Matches.seq a b [] [] (iha h.1) (ihb h.2)
    | star a _ => exact Matches.starNil a

theorem matches_deriv_of_matches_cons (r : RegExp) (c : Char) (s : List Char)
    (h : Matches r (c :: s)) : Matches (r.deriv c) s := by
  generalize hx : c :: s = x at h
  induction h generalizing s with
  | empty => cases hx
  | cls p d hd =>
      cases hx
      simp only [deriv, hd, if_true]
      exact Matches.empty
  | altL a b t _ ih => exact Matches.altL _ _ _ (ih s hx)
  | altR a b t _ ih => exact Matches.altR _ _ _ (ih s hx)
  | seq a b u v hu hv iha ihb =>
      cases u with
      | nil =>
          have hn : a.nullable = true := (matches_nil_iff a).mp hu
          simp only [deriv, hn, if_true]
          exact Matches.altR _ _ _ (ihb s hx)
      | cons d u =>
          simp only [List.cons_append, List.cons.injEq] at hx
          obtain ⟨rfl, rfl⟩ := hx
          have h1 : Matches (seq (a.deriv c) b) (u ++ v) :=
            Matches.seq _ _ _ _ (iha u rfl) hv
          simp only [deriv]
          split
          · exact Matches.altL _ _ _ h1
          · exact h1
  | starNil a => cases hx
  | starCons a u v hu hv iha ihb =>
      cases u with
      | nil => exact ihb s hx
      | cons d u =>
          simp only [List.cons_append, List.cons.injEq] at hx
          obtain ⟨rfl, rfl⟩ := hx
          exact Matches.seq _ _ _ _ (iha u rfl) hv

theorem matches_cons_of_matches_deriv (r : RegExp) (c : Char) (s : List Char)
    (h : Matches (r.deriv c) s) : Matches r (c :: s) := by
  induction r generalizing s with
  | never => exact absurd h (matches_never s)
  | empty => exact absurd h (matches_never s)
  | cls p =>
      simp only [deriv] at h
      split at h
      · rename_i hp
        rw [(matches_empty_iff s).mp h]
        exact Matches.cls p c hp
      · exact absurd h (matches_never s)
  | alt a b iha ihb =>
      rcases (matches_alt_iff _ _ _).mp h with h | h
      · exact Matches.altL _ _ _ (iha s h)
      · exact Matches.altR _ _ _ (ihb s h)
  | seq a b iha ihb =>
      have key : Matches (seq (a.deriv c) b) s → Matches (seq a b) (c :: s) := by
        intro h1
        obtain ⟨u, v, rfl, hu, hv⟩ := (matches_seq_iff _ _ _).mp h1
        exact Matches.seq a b (c :: u) v (iha u hu) hv
      simp only [deriv] at h
      split at h
      · rename_i hn
        rcases (matches_alt_iff _ _ _).mp h with h | h
        · exact key h
        · exact Matches.seq a b [] (c :: s) ((matches_nil_iff a).mpr hn) (ihb s h)
      · exact key h
  | star a iha =>
      obtain ⟨u, v, rfl, hu, hv⟩ := (matches_seq_iff _ _ _).mp h
      exact Matches.starCons a (c :: u) v (iha u hu) hv

/-- The derivative matcher accepts exactly the language of the expression. -/
theorem testChars_iff (r : RegExp) (s : List Char) :
    testChars r s = true ↔ Matches r s := by
  induction s generalizing r with
  | nil => exact (matches_nil_iff r).symm
  | cons c s ih =>
      simp only [testChars]
      rw [ih]
      exact ⟨matches_cons_of_matches_deriv r c s, matches_deriv_of_matches_cons r c s⟩

end RegExp

namespace RegExp

theorem matches_chr_iff (c : Char) (s : List Char) : Matches (chr c) s ↔ s = [c] := by
  unfold chr
  rw [matches_cls_iff]
  constructor
  · rintro ⟨d, rfl, hd⟩
    rw [beq_iff_eq] at hd
    rw [hd]
  · rintro rfl
    exact ⟨c, rfl, by simp⟩

/-- The language of `p*` for a character class `p`: all inputs made of `p` only. -/
theorem matches_star_cls_iff (p : Char → Bool) (s : List Char) :
    Matches (star (cls p)) s ↔ ∀ c ∈ s, p c = true := by
  constructor
  · intro h
    generalize hr : star (cls p) = r at h
    induction h with
    | empty => cases hr
    | cls _ _ _ => cases hr
    | altL _ _ _ _ _ => cases hr
    | altR _ _ _ _ _ => cases hr
    | seq _ _ _ _ _ _ _ _ => cases hr
    | starNil a => intro c hc; cases hc
    | starCons a u v hu _ _ ihv =>
        cases hr
        obtain ⟨d, rfl, hd⟩ := (matches_cls_iff p u).mp hu
        intro c hc
        rcases List.mem_append.mp hc with hc | hc
        · rw [List.mem_singleton.mp hc]
          exact hd
        · exact ihv rfl c hc
  · intro h
    induction s with
    | nil => exact Matches.starNil _
    | cons c s ih =>
        have h1 : Matches (cls p) [c] := Matches.cls p c (h c (List.mem_cons_self c s))
        have h2 : Matches (star (cls p)) s := ih (fun d hd => h d (List.mem_cons_of_mem c hd))
        exact Matches.starCons (cls p) [c] s h1 h2

/-- The language of `p+` for a character class `p`. -/
theorem matches_plus_cls_iff (p : Char → Bool) (s : List Char) :
    Matches (plus (cls p)) s ↔ s ≠ [] ∧ ∀ c ∈ s, p c = true := by
  unfold plus
  rw [matches_seq_iff]
  constructor
  · rintro ⟨u, v, rfl, hu, hv⟩
    obtain ⟨d, rfl, hd⟩ := (matches_cls_iff p u).mp hu
    refine ⟨by simp, ?_⟩
    intro c hc
    rcases List.mem_append.mp hc with hc | hc
    · rw [List.mem_singleton.mp hc]
      exact hd
    · exact (matches_star_cls_iff p v).mp hv c hc
  · rintro ⟨hne, h⟩
    cases s with
    | nil => exact absurd rfl hne
    | cons c s =>
        refine ⟨[c], s, rfl, Matches.cls p c (h c (List.mem_cons_self c s)), ?_⟩
        exact (matches_star_cls_iff p s).mpr (fun d hd => h d (List.mem_cons_of_mem c hd))

end RegExp

/-! ## Strings: digits, white space, the email shape -/

theorem digitsPattern_test_iff (v : String) :
    digitsPattern.test v = true ↔ ∀ c ∈ v.data, isJsDigit c = true := by
  unfold digitsPattern RegExp.test
  rw [RegExp.testChars_iff, RegExp.matches_star_cls_iff]

theorem utf16Units_of_digit (c : Char) (h : isJsDigit c = true) : utf16Units c = 1 := by
  simp only [isJsDigit, Bool.and_eq_true, decide_eq_true_eq] at h
  unfold utf16Units
  rw [if_pos (by omega)]

theorem sum_utf16Units_of_digits (l : List Char) (h : ∀ c ∈ l, isJsDigit c = true) :
    (l.map utf16Units).sum = l.length := by
  induction l with
  | nil => rfl
  | cons c l ih =>
      simp only [List.map_cons, List.sum_cons, List.length_cons]
      rw [ih (fun d hd => h d (List.mem_cons_of_mem c hd)),
        utf16Units_of_digit c (h c (List.mem_cons_self c l))]
      omega

/-- On a string of digits the UTF-16 length is the number of characters. -/
theorem jsLength_of_digits (v : String) (h : ∀ c ∈ v.data, isJsDigit c = true) :
    jsLength v = v.data.length :=
  sum_utf16Units_of_digits v.data h

theorem trimChars_eq_nil_iff (l : List Char) :
    trimChars l = [] ↔ ∀ c ∈ l, isJsWhiteSpace c = true := by
  unfold trimChars
  rw [List.reverse_eq_nil_iff, List.dropWhile_eq_nil_iff]
  constructor
  · intro h
    have hnil : l.dropWhile isJsWhiteSpace = [] := by
      by_contra hne
      have h1 := List.head_dropWhile_not isJsWhiteSpace l hne
      have h2 := h _ (List.mem_reverse.mpr (List.head_mem hne))
      rw [h2] at h1
      exact Bool.noConfusion h1
    exact List.dropWhile_eq_nil_iff.mp hnil
  · intro h c hc
    exact h c ((List.dropWhile_sublist isJsWhiteSpace).subset (List.mem_reverse.mp hc))

theorem jsTrim_eq_empty_iff (v : String) :
    jsTrim v = "" ↔ ∀ c ∈ v.data, isJsWhiteSpace c = true := by
  rw [← trimChars_eq_nil_iff]
  unfold jsTrim
  constructor
  · intro h
    exact congrArg String.data h
  · intro h
    rw [h]

/-- The language of the email literal, on character lists. -/
theorem matches_emailPattern_iff (s : List Char) :
    RegExp.Matches emailPattern s ↔
      ∃ a b c : List Char, s = a ++ '@' :: (b ++ '.' :: c) ∧
        (a ≠ [] ∧ ∀ x ∈ a, isNonSpace x = true) ∧
        (b ≠ [] ∧ ∀ x ∈ b, isNonSpace x = true) ∧
        (c ≠ [] ∧ ∀ x ∈ c, isNonSpace x = true) := by
  unfold emailPattern
  constructor
  · intro h
    obtain ⟨a, r1, rfl, ha, h1⟩ := (RegExp.matches_seq_iff _ _ _).mp h
    obtain ⟨x, r2, rfl, hx, h2⟩ := (RegExp.matches_seq_iff _ _ _).mp h1
    obtain ⟨b, r3, rfl, hb, h3⟩ := (RegExp.matches_seq_iff _ _ _).mp h2
    obtain ⟨y, c, rfl, hy, hc⟩ := (RegExp.matches_seq_iff _ _ _).mp h3
    rw [RegExp.matches_chr_iff] at hx hy
    subst hx hy
    exact ⟨a, b, c, by simp, (RegExp.matches_plus_cls_iff _ _).mp ha,
      (RegExp.matches_plus_cls_iff _ _).mp hb, (RegExp.matches_plus_cls_iff _ _).mp hc⟩
  · rintro ⟨a, b, c, rfl, ha, hb, hc⟩
    refine RegExp.Matches.seq _ _ a _ ((RegExp.matches_plus_cls_iff _ _).mpr ha) ?_
    refine RegExp.Matches.seq _ _ ['@'] _ ((RegExp.matches_chr_iff _ _).mpr rfl) ?_
    refine RegExp.Matches.seq _ _ b _ ((RegExp.matches_plus_cls_iff _ _).mpr hb) ?_
    exact RegExp.Matches.seq _ _ ['.'] _ ((RegExp.matches_chr_iff _ _).mpr rfl)
      ((RegExp.matches_plus_cls_iff _ _).mpr hc)

theorem not_isJsWhiteSpace_at : isJsWhiteSpace '@' = false := by decide

theorem not_isJsWhiteSpace_dot : isJsWhiteSpace '.' = false := by decide

/-- The email literal accepts exactly the white-space-free inputs of the shape
`a @ b . c` with three non-empty parts. -/
theorem emailPattern_test_iff (v : String) :
    emailPattern.test v = true ↔
      (∀ ch ∈ v.data, isJsWhiteSpace ch = false) ∧
        ∃ a b c : List Char, a ≠ [] ∧ b ≠ [] ∧ c ≠ [] ∧ v.data = a ++ '@' :: (b ++ '.' :: c) := by
  unfold RegExp.test
  rw [RegExp.testChars_iff, matches_emailPattern_iff]
  constructor
  · rintro ⟨a, b, c, hv, ⟨ha, ha2⟩, ⟨hb, hb2⟩, ⟨hc, hc2⟩⟩
    refine ⟨?_, a, b, c, ha, hb, hc, hv⟩
    intro ch hch
    rw [hv] at hch
    have hns : ∀ x, isNonSpace x = true → isJsWhiteSpace x = false := by
      intro x hx
      simpa [isNonSpace] using hx
    simp only [List.mem_append, List.mem_cons] at hch
    rcases hch with h | h | h | h | h
    · exact hns ch (ha2 ch h)
    · rw [h]; exact not_isJsWhiteSpace_at
    · exact hns ch (hb2 ch h)
    · rw [h]; exact not_isJsWhiteSpace_dot
    · exact hns ch (hc2 ch h)
  · rintro ⟨hws, a, b, c, ha, hb, hc, hv⟩
    have hns : ∀ x ∈ v.data, isNonSpace x = true := by
      intro x hx
      simp [isNonSpace, hws x hx]
    refine ⟨a, b, c, hv, ⟨ha, ?_⟩, ⟨hb, ?_⟩, ⟨hc, ?_⟩⟩
    · intro x hx
      exact hns x (by rw [hv]; simp [hx])
    · intro x hx
      exact hns x (by rw [hv]; simp [hx])
    · intro x hx
      exact hns x (by rw [hv]; simp [hx])

/-- The shape `a @ b . c` with non-empty parts, read as positions of `@` and `.`. -/
theorem shape_iff_index (s : List Char) :
    (∃ a b c : List Char, a ≠ [] ∧ b ≠ [] ∧ c ≠ [] ∧ s = a ++ '@' :: (b ++ '.' :: c)) ↔
      ∃ i j : Nat, 1 ≤ i ∧ i + 2 ≤ j ∧ j ≤ s.length - 2 ∧
        s[i]? = some '@' ∧ s[j]? = some '.' := by
  constructor
  · rintro ⟨a, b, c, ha, hb, hc, rfl⟩
    have ha1 := List.length_pos.mpr ha
    have hb1 := List.length_pos.mpr hb
    have hc1 := List.length_pos.mpr hc
    refine ⟨a.length, a.length + 1 + b.length, ha1, by omega, ?_, ?_, ?_⟩
    · simp only [List.length_append, List.length_cons]
      omega
    · rw [List.getElem?_append_right (Nat.le_refl _)]
      simp
    · rw [List.getElem?_append_right (by omega)]
      have h1 : a.length + 1 + b.length - a.length = b.length + 1 := by omega
      rw [h1, List.getElem?_cons_succ, List.getElem?_append_right (Nat.le_refl _)]
      simp
  · rintro ⟨i, j, hi, hij, hj, hat, hdot⟩
    obtain ⟨hi2, hat2⟩ := List.getElem?_eq_some.mp hat
    obtain ⟨hj2, hdot2⟩ := List.getElem?_eq_some.mp hdot
    have e1 : s = s.take i ++ '@' :: s.drop (i + 1) := by
      rw [← hat2, ← List.drop_eq_getElem_cons hi2, List.take_append_drop]
    have hk : j - (i + 1) < (s.drop (i + 1)).length := by
      rw [List.length_drop]
      omega
    have hk2 : (s.drop (i + 1))[j - (i + 1)] = '.' := by
      rw [List.getElem_drop]
      have : i + 1 + (j - (i + 1)) = j := by omega
      simp only [this]
      exact hdot2
    have e2 : s.drop (i + 1) =
        (s.drop (i + 1)).take (j - (i + 1)) ++ '.' :: (s.drop (i + 1)).drop (j - (i + 1) + 1) := by
      rw [← hk2, ← List.drop_eq_getElem_cons hk, List.take_append_drop]
    refine ⟨s.take i, (s.drop (i + 1)).take (j - (i + 1)),
      (s.drop (i + 1)).drop (j - (i + 1) + 1), ?_, ?_, ?_, ?_⟩
    · apply List.ne_nil_of_length_pos
      rw [List.length_take]
      omega
    · apply List.ne_nil_of_length_pos
      rw [List.length_take, List.length_drop]
      omega
    · apply List.ne_nil_of_length_pos
      rw [List.length_drop, List.length_drop]
      omega
    · rw [← e2]
      exact e1

/-- The shape `a @ b . c`, on strings and on their character lists. -/
theorem shape_string_iff (v : String) :
    (∃ a b c : String, a ≠ "" ∧ b ≠ "" ∧ c ≠ "" ∧ v = a ++ "@" ++ b ++ "." ++ c) ↔
      ∃ a b c : List Char, a ≠ [] ∧ b ≠ [] ∧ c ≠ [] ∧ v.data = a ++ '@' :: (b ++ '.' :: c) := by
  have hne : ∀ l : List Char, l ≠ [] → String.mk l ≠ "" := by
    intro l hl h
    exact hl (congrArg String.data h)
  constructor
  · rintro ⟨a, b, c, ha, hb, hc, rfl⟩
    refine ⟨a.data, b.data, c.data, ?_, ?_, ?_, ?_⟩
    · intro h; exact ha (String.ext h)
    · intro h; exact hb (String.ext h)
    · intro h; exact hc (String.ext h)
    · simp
  · rintro ⟨a, b, c, ha, hb, hc, hv⟩
    refine ⟨String.mk a, String.mk b, String.mk c, hne a ha, hne b hb, hne c hc, ?_⟩
    apply String.ext
    simp [hv]

/-! ## The validator -/

theorem any_not_digit_eq_false_iff (l : List Char) :
    l.any (fun c => !isJsDigit c) = false ↔ ∀ c ∈ l, isJsDigit c = true := by
  simp [List.any_eq_false]

theorem validateField_phone_eq (v : String) :
    validateField .phone v =
      (if v.data.any (fun c => !isJsDigit c) then "Phone number must contain only digits."
       else if jsLength v ≠ 10 then "Phone number must be exactly 10 digits."
       else "") := by
  by_cases h : digitsPattern.test v = true
  · have hany := (any_not_digit_eq_false_iff v.data).mpr ((digitsPattern_test_iff v).mp h)
    simp only [validateField, h, hany]
    rfl
  · have hany : v.data.any (fun c => !isJsDigit c) = true := by
      cases hb : v.data.any (fun c => !isJsDigit c) with
      | true => rfl
      | false =>
          exact absurd ((digitsPattern_test_iff v).mpr
            ((any_not_digit_eq_false_iff v.data).mp hb)) h
    rw [Bool.not_eq_true] at h
    simp only [validateField, h, hany]
    rfl

theorem validateField_phone_eq_empty_iff (v : String) :
    validateField .phone v = "" ↔
      (∀ c ∈ v.data, isJsDigit c = true) ∧ v.data.length = 10 := by
  rw [validateField_phone_eq]
  constructor
  · intro h
    by_cases hany : v.data.any (fun c => !isJsDigit c) = true
    · rw [if_pos hany] at h
      exact absurd h (by decide)
    · rw [Bool.not_eq_true] at hany
      have hd := (any_not_digit_eq_false_iff v.data).mp hany
      refine ⟨hd, ?_⟩
      rw [← jsLength_of_digits v hd]
      by_contra hlen
      rw [hany] at h
      simp only [Bool.false_eq_true, if_false] at h
      rw [if_pos hlen] at h
      exact absurd h (by decide)
  · rintro ⟨hd, hlen⟩
    have hany := (any_not_digit_eq_false_iff v.data).mpr hd
    rw [hany, jsLength_of_digits v hd, hlen]
    rfl

theorem validateField_email_eq_empty_iff (v : String) :
    validateField .email v = "" ↔ emailPattern.test v = true := by
  by_cases h : emailPattern.test v = true
  · simp [validateField, h]
  · simp only [validateField, h, Bool.false_eq_true, if_false, iff_false]
    decide

theorem validateField_name_eq (v : String) :
    validateField .name v =
      (if v.data.all isJsWhiteSpace then "Name is required." else "") := by
  by_cases h : jsTrim v = ""
  · have hall : v.data.all isJsWhiteSpace = true :=
      List.all_eq_true.mpr ((jsTrim_eq_empty_iff v).mp h)
    simp [validateField, h, hall]
  · have hall : ¬ (v.data.all isJsWhiteSpace = true) := fun hall =>
      h ((jsTrim_eq_empty_iff v).mpr (List.all_eq_true.mp hall))
    simp [validateField, h, hall]

theorem validateField_name_eq_empty_iff (v : String) :
    validateField .name v = "" ↔ ¬ ∀ c ∈ v.data, isJsWhiteSpace c = true := by
  rw [validateField_name_eq, ← List.all_eq_true]
  by_cases hall : v.data.all isJsWhiteSpace = true
  · simp only [hall, if_true, not_true_eq_false, iff_false]
    decide
  · simp [hall]

theorem validateField_pdf1_eq_empty_iff (p : FileSlot) :
    validateField .pdf1 p = "" ↔
      p = FileSlot.null ∨ p = FileSlot.undefined ∨
        p = FileSlot.file { type := "application/pdf" } := by
  cases p with
  | null => simp [validateField]
  | undefined => simp [validateField]
  | file f =>
      cases f with
      | mk t =>
          by_cases ht : t = "application/pdf"
          · simp [validateField, ht]
          · have hmsg : ¬ ("Only PDF files are allowed." = "") := by decide
            simp [validateField, ht, hmsg]

/-- The hypothesis "every field is valid", spelled out field by field. -/
theorem all_valid_iff (d : FormData) :
    (∀ f : Field, validateField f (d.get f) = "") ↔
      (¬ ∀ c ∈ d.name.data, isJsWhiteSpace c = true) ∧
        emailPattern.test d.email = true ∧
        ((∀ c ∈ d.phone.data, isJsDigit c = true) ∧ d.phone.data.length = 10) ∧
        d.preference1 ≠ "" ∧
        (d.pdf1 = FileSlot.null ∨ d.pdf1 = FileSlot.undefined ∨
          d.pdf1 = FileSlot.file { type := "application/pdf" }) := by
  have hpref : validateField .preference1 d.preference1 = "" ↔ d.preference1 ≠ "" := by
    by_cases h : d.preference1 = ""
    · simp only [validateField, h, if_true, ne_eq, not_true_eq_false, iff_false]
      decide
    · simp [validateField, h]
  constructor
  · intro h
    exact ⟨(validateField_name_eq_empty_iff _).mp (h .name),
      (validateField_email_eq_empty_iff _).mp (h .email),
      (validateField_phone_eq_empty_iff _).mp (h .phone),
      hpref.mp (h .preference1),
      (validateField_pdf1_eq_empty_iff _).mp (h .pdf1)⟩
  · rintro ⟨h1, h2, h3, h4, h5⟩ f
    cases f with
    | name => exact (validateField_name_eq_empty_iff _).mpr h1
    | email => exact (validateField_email_eq_empty_iff _).mpr h2
    | phone => exact (validateField_phone_eq_empty_iff _).mpr h3
    | githubTasks => rfl
    | preference1 => exact hpref.mpr h4
    | pdf1 => exact (validateField_pdf1_eq_empty_iff _).mpr h5

/-- Claim C3: for every string `v`, the phone validator returns the digit-format
message when `v` contains a character other than `0`-`9`, otherwise the length
message when the length of `v` is not 10 (the empty string included), otherwise
the empty string; so the result is empty exactly when `v` is ten digits, and the
format message takes precedence over the length message. -/
theorem validateField_phone (v : String) :
    validateField .phone v =
        (if v.data.any (fun c => !isJsDigit c) then "Phone number must contain only digits."
         else if jsLength v ≠ 10 then "Phone number must be exactly 10 digits."
         else "") ∧
      (validateField .phone v = "" ↔
        (∀ c ∈ v.data, isJsDigit c = true) ∧ v.data.length = 10) ∧
      validateField .phone "" = "Phone number must be exactly 10 digits." ∧
      validateField .phone "1234567890" = "" ∧
      validateField .phone "12345" = "Phone number must be exactly 10 digits." ∧
      validateField .phone "12a4567890" = "Phone number must contain only digits." ∧
      validateField .phone "12a45" = "Phone number must contain only digits." :=
  ⟨validateField_phone_eq v, validateField_phone_eq_empty_iff v, by decide, by decide,
    by decide, by decide, by decide⟩

/-- Claim C4: for every string `v`, the email validator returns the empty string
if and only if `v` contains no white-space character and is `a + "@" + b + "." + c`
with `a`, `b`, `c` non-empty (equivalently, some `@` at a position `i ≥ 1` is
followed by some `.` at a position `j` with `i + 2 ≤ j ≤ length - 2`); otherwise it
returns the invalid-email message. `a@b.co` is valid, `abc` and `a@b` are not. -/
theorem validateField_email (v : String) :
    (validateField .email v = "" ↔
        (∀ ch ∈ v.data, isJsWhiteSpace ch = false) ∧
          ∃ a b c : String, a ≠ "" ∧ b ≠ "" ∧ c ≠ "" ∧ v = a ++ "@" ++ b ++ "." ++ c) ∧
      (validateField .email v = "" ↔
        (∀ ch ∈ v.data, isJsWhiteSpace ch = false) ∧
          ∃ i j : Nat, 1 ≤ i ∧ i + 2 ≤ j ∧ j ≤ v.data.length - 2 ∧
            v.data[i]? = some '@' ∧ v.data[j]? = some '.') ∧
      (validateField .email v = "" ∨
        validateField .email v = "Please enter a valid email address.") ∧
      validateField .email "a@b.co" = "" ∧
      validateField .email "abc" = "Please enter a valid email address." ∧
      validateField .email "a@b" = "Please enter a valid email address." := by
  refine ⟨?_, ?_, ?_, by decide, by decide, by decide⟩
  · rw [validateField_email_eq_empty_iff, emailPattern_test_iff, shape_string_iff]
  · rw [validateField_email_eq_empty_iff, emailPattern_test_iff, shape_iff_index]
  · by_cases h : emailPattern.test v = true
    · exact Or.inl ((validateField_email_eq_empty_iff v).mpr h)
    · right
      simp [validateField, h]

/-- Claim C5: for every string `v`, the name validator returns "Name is required."
exactly when `v` is empty after trimming, that is when `v` is empty or all white
space, and the empty string otherwise; the preference validator returns
"Please select a preference." exactly when `v` is the empty string, and the empty
string otherwise. -/
theorem validateField_required (v : String) :
    validateField .name v =
        (if v.data.all isJsWhiteSpace then "Name is required." else "") ∧
      (validateField .name v = "Name is required." ↔ jsTrim v = "") ∧
      (jsTrim v = "" ↔ ∀ c ∈ v.data, isJsWhiteSpace c = true) ∧
      validateField .preference1 v =
        (if v = "" then "Please select a preference." else "") ∧
      (validateField .preference1 v = "Please select a preference." ↔ v = "") ∧
      validateField .name "" = "Name is required." ∧
      validateField .name " \t\n" = "Name is required." ∧
      validateField .name " Ada Lovelace " = "" ∧
      validateField .preference1 "" = "Please select a preference." ∧
      validateField .preference1 "Option 1" = "" := by
  refine ⟨validateField_name_eq v, ?_, jsTrim_eq_empty_iff v, rfl, ?_, by decide,
    by decide, by decide, by decide, by decide⟩
  · by_cases h : jsTrim v = ""
    · simp [validateField, h]
    · simp only [validateField, h, if_false, iff_false]
      decide
  · by_cases h : v = ""
    · simp [validateField, h]
    · simp only [validateField, h, if_false, iff_false]
      decide

/-! ## Property access and update -/

theorem FormData.get_set_same (d : FormData) (f : Field) (v : f.Val) :
    (d.set f v).get f = v := by
  cases f <;> rfl

theorem FormData.get_set_other (d : FormData) (f g : Field) (v : f.Val) (h : g ≠ f) :
    (d.set f v).get g = d.get g := by
  cases f <;> cases g <;> first | rfl | exact absurd rfl h

theorem Obj.set_same {α : Type} (o : Obj α) (f : Field) (v : α) : (o.set f v) f = some v := by
  simp [Obj.set]

theorem Obj.set_other {α : Type} (o : Obj α) (f g : Field) (v : α) (h : g ≠ f) :
    (o.set f v) g = o g := by
  simp [Obj.set, h]

theorem mem_formDataKeys (f : Field) : f ∈ formDataKeys := by
  cases f <;> simp [formDataKeys]

theorem Obj.keys_length_eq_zero_iff {α : Type} (o : Obj α) :
    (Obj.keys o).length = 0 ↔ ∀ f, o f = none := by
  unfold Obj.keys
  rw [List.length_eq_zero, List.filter_eq_nil_iff]
  constructor
  · intro h f
    have := h f (mem_formDataKeys f)
    simpa using this
  · intro h f _
    simp [h f]

/-! ## Submission -/

theorem foldl_errors_apply (e : Field → String) (l : List Field) (acc : Obj String)
    (g : Field) :
    (l.foldl (fun acc field => if e field ≠ "" then Obj.set acc field (e field) else acc)
        acc) g =
      if g ∈ l ∧ e g ≠ "" then some (e g) else acc g := by
  induction l generalizing acc with
  | nil => simp
  | cons f l ih =>
      rw [List.foldl_cons, ih]
      by_cases hg : e g = ""
      · have h1 : ¬ (g ∈ l ∧ e g ≠ "") := fun h => h.2 hg
        have h2 : ¬ (g ∈ f :: l ∧ e g ≠ "") := fun h => h.2 hg
        rw [if_neg h1, if_neg h2]
        by_cases hf : e f = ""
        · simp [hf]
        · have hgf : g ≠ f := fun h => hf (h ▸ hg)
          simp [hf, Obj.set, hgf]
      · by_cases hl : g ∈ l
        · simp [hl, hg]
        · by_cases hgf : g = f
          · subst hgf
            simp [hl, hg, Obj.set]
          · by_cases hf : e f = ""
            · simp [hl, hgf, hf]
            · simp [hl, hgf, hf, Obj.set]

/-- The `newErrors` object has an entry exactly for the fields whose message is
non-empty, and the entry is that message. -/
theorem submitErrors_apply (d : FormData) (g : Field) :
    submitErrors d g =
      if validateField g (d.get g) = "" then none else some (validateField g (d.get g)) := by
  unfold submitErrors
  have h := foldl_errors_apply (fun f => validateField f (d.get f)) formDataKeys Obj.empty g
  simp only [mem_formDataKeys, true_and] at h
  rw [h]
  by_cases hg : validateField g (d.get g) = ""
  · simp [hg, Obj.empty]
  · simp [hg]

theorem submitErrors_keys_length (d : FormData) :
    (Obj.keys (submitErrors d)).length = 0 ↔ ∀ f, validateField f (d.get f) = "" := by
  rw [Obj.keys_length_eq_zero_iff]
  constructor
  · intro h f
    have := h f
    rw [submitErrors_apply] at this
    by_contra hne
    simp [hne] at this
  · intro h f
    rw [submitErrors_apply, if_pos (h f)]

theorem handleSubmit_of_valid (s : State)
    (h : ∀ f, validateField f (s.formData.get f) = "") :
    handleSubmit s =
      { isSubmitted := true, formData := initialFormData, touched := Obj.empty,
        errors := Obj.empty } := by
  unfold handleSubmit
  simp only
  rw [if_pos ((submitErrors_keys_length s.formData).mpr h)]

theorem handleSubmit_of_invalid (s : State)
    (h : ∃ f, validateField f (s.formData.get f) ≠ "") :
    handleSubmit s = { s with errors := submitErrors s.formData } := by
  unfold handleSubmit
  simp only
  rw [if_neg]
  intro h0
  obtain ⟨f, hf⟩ := h
  exact hf ((submitErrors_keys_length s.formData).mp h0 f)

/-- Claim C1: in every state where the validator returns the empty string for each
of the six fields on its current value, `handleSubmit` produces the state with
`isSubmitted = true`, `formData` equal to the initial values (five empty strings
and `pdf1` absent), `touched` empty and `errors` empty. -/
theorem handleSubmit_all_valid (s : State)
    (h : ∀ f : Field, validateField f (s.formData.get f) = "") :
    handleSubmit s =
        { isSubmitted := true
          formData :=
            { name := "", email := "", phone := "", githubTasks := "", preference1 := "",
              pdf1 := .null }
          touched := fun _ => none
          errors := fun _ => none } ∧
      (handleSubmit s).isSubmitted = true ∧
      (handleSubmit s).formData = initialFormData ∧
      (∀ f, (handleSubmit s).touched f = none) ∧
      (∀ f, (handleSubmit s).errors f = none) ∧
      ((¬ ∀ c ∈ s.formData.name.data, isJsWhiteSpace c = true) ∧
        emailPattern.test s.formData.email = true ∧
        ((∀ c ∈ s.formData.phone.data, isJsDigit c = true) ∧
          s.formData.phone.data.length = 10) ∧
        s.formData.preference1 ≠ "" ∧
        (s.formData.pdf1 = FileSlot.null ∨ s.formData.pdf1 = FileSlot.undefined ∨
          s.formData.pdf1 = FileSlot.file { type := "application/pdf" })) := by
  rw [handleSubmit_of_valid s h]
  exact ⟨rfl, rfl, rfl, fun _ => rfl, fun _ => rfl, (all_valid_iff s.formData).mp h⟩

/-- Witness for C1 at the filled-in form. -/
theorem handleSubmit_all_valid_witness :
    (∀ f : Field, validateField f (filledState.formData.get f) = "") ∧
      (handleSubmit filledState).isSubmitted = true ∧
      (handleSubmit filledState).formData = initialFormData :=
  have h : ∀ f : Field, validateField f (filledState.formData.get f) = "" := by decide
  ⟨h, (handleSubmit_all_valid filledState h).2.1, (handleSubmit_all_valid filledState h).2.2.1⟩

/-- Claim C2: in every state where the validator returns a non-empty message for at
least one field, `handleSubmit` leaves `formData`, `touched` and `isSubmitted`
unchanged and replaces `errors` by the map whose keys are exactly the fields with
a non-empty message, each mapped to that message; earlier entries are discarded.
In particular, from a non-submitted state with an empty name and all other fields
valid, `errors` becomes `{name: "Name is required."}`, `isSubmitted` stays false and
the field values are preserved. -/
theorem handleSubmit_some_invalid (s : State)
    (h : ∃ f : Field, validateField f (s.formData.get f) ≠ "") :
    handleSubmit s =
        { s with
          errors := fun f =>
            if validateField f (s.formData.get f) = "" then none
            else some (validateField f (s.formData.get f)) } ∧
      (handleSubmit s).formData = s.formData ∧
      (handleSubmit s).touched = s.touched ∧
      (handleSubmit s).isSubmitted = s.isSubmitted ∧
      (∀ f, ((handleSubmit s).errors f).isSome = true ↔
        validateField f (s.formData.get f) ≠ "") ∧
      (∀ f, validateField f (s.formData.get f) ≠ "" →
        (handleSubmit s).errors f = some (validateField f (s.formData.get f))) ∧
      (s.formData.name = "" →
        (∀ f, f ≠ Field.name → validateField f (s.formData.get f) = "") →
        s.isSubmitted = false →
        (handleSubmit s).errors = Obj.set Obj.empty Field.name "Name is required." ∧
          (handleSubmit s).isSubmitted = false ∧
          (handleSubmit s).formData = s.formData) := by
  have herr : submitErrors s.formData = fun f =>
      if validateField f (s.formData.get f) = "" then none
      else some (validateField f (s.formData.get f)) :=
    funext (submitErrors_apply s.formData)
  rw [handleSubmit_of_invalid s h, herr]
  refine ⟨rfl, rfl, rfl, rfl, ?_, ?_, ?_⟩
  · intro f
    by_cases hf : validateField f (s.formData.get f) = ""
    · simp [hf]
    · simp [hf]
  · intro f hf
    simp [hf]
  · intro hname hrest hsub
    refine ⟨?_, hsub, rfl⟩
    funext f
    by_cases hf : f = Field.name
    · subst hf
      have hv : validateField Field.name (s.formData.get Field.name) = "Name is required." := by
        show validateField Field.name s.formData.name = "Name is required."
        rw [hname]
        decide
      simp only [hv, Obj.set, if_true]
      rfl
    · simp [hrest f hf, Obj.set, Obj.empty, hf]

/-- Witness for C2 at the filled-in form with the name erased: the stale entries
for `name` and `email` are replaced by the single entry for `name`. -/
theorem handleSubmit_some_invalid_witness :
    namelessState.errors Field.email = some "" ∧
      (handleSubmit namelessState).errors = Obj.set Obj.empty Field.name "Name is required." ∧
      (handleSubmit namelessState).isSubmitted = false ∧
      (handleSubmit namelessState).formData = namelessState.formData :=
  ⟨by decide,
    (handleSubmit_some_invalid namelessState ⟨Field.name, by decide⟩).2.2.2.2.2.2
      rfl (by decide) rfl⟩

/-- Claim C6: the file validator returns the empty string when no file is present
(`null` or `undefined`) and for every file whose declared type is exactly
`application/pdf`, and "Only PDF files are allowed." for every file with any other
declared type, such as `image/png`; an absent file is no error at submit either:
`handleSubmit` stores no entry for `pdf1`. -/
theorem validateField_pdf1 :
    validateField .pdf1 FileSlot.null = "" ∧
      validateField .pdf1 FileSlot.undefined = "" ∧
      (∀ f : File, validateField .pdf1 (FileSlot.file f) =
        if f.type = "application/pdf" then "" else "Only PDF files are allowed.") ∧
      validateField .pdf1 (FileSlot.file { type := "application/pdf" }) = "" ∧
      validateField .pdf1 (FileSlot.file { type := "image/png" }) =
        "Only PDF files are allowed." ∧
      (∀ s : State, s.formData.pdf1 = FileSlot.null ∨ s.formData.pdf1 = FileSlot.undefined →
        (handleSubmit s).errors Field.pdf1 = none) := by
  refine ⟨rfl, rfl, ?_, by decide, by decide, ?_⟩
  · intro f
    by_cases hf : f.type = "application/pdf"
    · simp [validateField, hf]
    · simp [validateField, hf]
  · intro s hs
    have hv : validateField Field.pdf1 (s.formData.get Field.pdf1) = "" := by
      show validateField Field.pdf1 s.formData.pdf1 = ""
      rcases hs with hs | hs <;> rw [hs] <;> rfl
    by_cases hall : ∀ f, validateField f (s.formData.get f) = ""
    · rw [handleSubmit_of_valid s hall]
      rfl
    · have hex : ∃ f, validateField f (s.formData.get f) ≠ "" := by
        by_contra hne
        exact hall (fun f => by_contra (fun hf => hne ⟨f, hf⟩))
      rw [handleSubmit_of_invalid s hex]
      show submitErrors s.formData Field.pdf1 = none
      rw [submitErrors_apply, if_pos hv]

/-! ## Editing and leaving a field -/

/-- Claim C7: for every state `s`, field `f` and value `v`, `handleChange(f, v)`
yields a state in which `formData[f] = v` and `errors[f] = validateField(f, v)`,
while the values and error entries of all other fields, `touched` and
`isSubmitted` are as in `s`. -/
theorem handleChange_frame (s : State) (f : Field) (v : f.Val) :
    (handleChange s f v).formData.get f = v ∧
      (handleChange s f v).errors f = some (validateField f v) ∧
      (∀ g, g ≠ f → (handleChange s f v).formData.get g = s.formData.get g) ∧
      (∀ g, g ≠ f → (handleChange s f v).errors g = s.errors g) ∧
      (handleChange s f v).touched = s.touched ∧
      (handleChange s f v).isSubmitted = s.isSubmitted :=
  ⟨FormData.get_set_same s.formData f v, Obj.set_same s.errors f _,
    fun g hg => FormData.get_set_other s.formData f g v hg,
    fun g hg => Obj.set_other s.errors f g _ hg, rfl, rfl⟩

/-- Claim C9: for every state `s` and field `f`, `handleBlur(f)` yields a state in
which `touched[f] = true` and `errors[f] = validateField(f, formData[f])`, while
`formData`, the touched flags and error entries of all other fields, and
`isSubmitted` are as in `s`. -/
theorem handleBlur_frame (s : State) (f : Field) :
    (handleBlur s f).touched f = some true ∧
      (handleBlur s f).errors f = some (validateField f (s.formData.get f)) ∧
      (handleBlur s f).formData = s.formData ∧
      (∀ g, g ≠ f → (handleBlur s f).touched g = s.touched g) ∧
      (∀ g, g ≠ f → (handleBlur s f).errors g = s.errors g) ∧
      (handleBlur s f).isSubmitted = s.isSubmitted :=
  ⟨Obj.set_same s.touched f true, Obj.set_same s.errors f _, rfl,
    fun g hg => Obj.set_other s.touched f g true hg,
    fun g hg => Obj.set_other s.errors f g _ hg, rfl⟩

/-! ## The submitted flag -/

theorem handleSubmit_isSubmitted (s : State) (h : s.isSubmitted = true) :
    (handleSubmit s).isSubmitted = true := by
  unfold handleSubmit
  simp only
  split
  · rfl
  · exact h

theorem step_isSubmitted (s : State) (e : Event) (h : s.isSubmitted = true) :
    (step s e).isSubmitted = true := by
  cases e with
  | change name value => exact h
  | fileChange files => exact h
  | blur name => exact h
  | submit => exact handleSubmit_isSubmitted s h

/-- Counterexample to C8: right after the filled-in form has been submitted
successfully, typing into the name input leaves `isSubmitted` true. -/
theorem handleChange_after_submit_counterexample :
    submittedState.isSubmitted = true ∧
      ¬ (submittedState.isSubmitted = true →
          (handleChange submittedState Field.name "Grace").isSubmitted = false) := by
  have h : submittedState.isSubmitted = true := by decide
  refine ⟨h, fun hc => ?_⟩
  have h2 : (handleChange submittedState Field.name "Grace").isSubmitted = true := h
  rw [hc h] at h2
  exact Bool.noConfusion h2

/-- Claim C8, amended: for every state with `isSubmitted = true` and every field
`f` and value `v`, the state after `handleChange(f, v)` still has
`isSubmitted = true`; `handleChange` leaves the flag as it is, and no other event
resets it either. -/
theorem handleChange_keeps_isSubmitted (s : State) (f : Field) (v : f.Val)
    (h : s.isSubmitted = true) :
    (handleChange s f v).isSubmitted = true ∧
      ∀ e : Event, (step s e).isSubmitted = true :=
  ⟨h, fun e => step_isSubmitted s e h⟩

/-- Witness for the amended C8 at the form right after a successful submission. -/
theorem handleChange_keeps_isSubmitted_witness :
    submittedState.isSubmitted = true ∧
      (handleChange submittedState Field.name "Grace").isSubmitted = true :=
  ⟨by decide,
    (handleChange_keeps_isSubmitted submittedState Field.name "Grace" (by decide)).1⟩

/-! ## Stored errors agree with the validator -/

theorem errorsAgree_initialState : ErrorsAgree initialState := by
  intro f msg h
  cases h

theorem errorsAgree_handleChange (s : State) (f : Field) (v : f.Val) (h : ErrorsAgree s) :
    ErrorsAgree (handleChange s f v) := by
  intro g msg hg
  by_cases hgf : g = f
  · subst hgf
    have hg2 : (s.errors.set g (validateField g v)) g = some msg := hg
    rw [Obj.set_same] at hg2
    show msg = validateField g ((s.formData.set g v).get g)
    rw [FormData.get_set_same]
    exact (Option.some.inj hg2).symm
  · have hg2 : (s.errors.set f (validateField f v)) g = some msg := hg
    rw [Obj.set_other _ f g _ hgf] at hg2
    show msg = validateField g ((s.formData.set f v).get g)
    rw [FormData.get_set_other _ f g v hgf]
    exact h g msg hg2

theorem errorsAgree_handleBlur (s : State) (f : Field) (h : ErrorsAgree s) :
    ErrorsAgree (handleBlur s f) := by
  intro g msg hg
  have hg2 : (s.errors.set f (validateField f (s.formData.get f))) g = some msg := hg
  show msg = validateField g (s.formData.get g)
  by_cases hgf : g = f
  · subst hgf
    rw [Obj.set_same] at hg2
    exact (Option.some.inj hg2).symm
  · rw [Obj.set_other _ f g _ hgf] at hg2
    exact h g msg hg2

theorem errorsAgree_handleSubmit (s : State) : ErrorsAgree (handleSubmit s) := by
  intro g msg hg
  by_cases hall : ∀ f, validateField f (s.formData.get f) = ""
  · rw [handleSubmit_of_valid s hall] at hg
    cases hg
  · have hex : ∃ f, validateField f (s.formData.get f) ≠ "" := by
      by_contra hne
      exact hall (fun f => by_contra (fun hf => hne ⟨f, hf⟩))
    rw [handleSubmit_of_invalid s hex] at hg ⊢
    have hg2 : submitErrors s.formData g = some msg := hg
    rw [submitErrors_apply] at hg2
    split at hg2
    · cases hg2
    · exact (Option.some.inj hg2).symm

theorem errorsAgree_step (s : State) (e : Event) (h : ErrorsAgree s) :
    ErrorsAgree (step s e) := by
  cases e with
  | change name value => exact errorsAgree_handleChange s name value h
  | fileChange files => exact errorsAgree_handleChange s Field.pdf1 (firstFile files) h
  | blur name => exact errorsAgree_handleBlur s name h
  | submit => exact errorsAgree_handleSubmit s

theorem errorsAgree_run (s : State) (events : List Event) (h : ErrorsAgree s) :
    ErrorsAgree (run s events) := by
  induction events generalizing s with
  | nil => exact h
  | cons e es ih => exact ih (step s e) (errorsAgree_step s e h)

theorem setterCalls_apply_self (s : State) (e : Event) :
    (setterCalls s e).apply s = step s e := by
  cases e with
  | change name value => rfl
  | fileChange files => rfl
  | blur name => rfl
  | submit =>
      show (setterCalls s Event.submit).apply s = handleSubmit s
      unfold setterCalls handleSubmit
      simp only
      split <;> rfl

theorem renderBatch_nil (r : State) : renderBatch r [] = r := rfl

theorem renderBatch_singleton (r : State) (e : Event) : renderBatch r [e] = step r e :=
  setterCalls_apply_self r e

/-- With a re-render after each event, the renders are the steps of `run`. -/
theorem runRenders_singletons (s : State) (events : List Event) :
    runRenders s (events.map (fun e => [e])) = run s events := by
  induction events generalizing s with
  | nil => rfl
  | cons e es ih =>
      show runRenders (renderBatch s [e]) (es.map (fun e => [e])) = run (step s e) es
      rw [renderBatch_singleton, ih]

theorem errorsAgree_renderBatch (r : State) (b : List Event) (hb : b.length ≤ 1)
    (h : ErrorsAgree r) : ErrorsAgree (renderBatch r b) := by
  cases b with
  | nil => exact h
  | cons e es =>
      cases es with
      | nil =>
          rw [renderBatch_singleton]
          exact errorsAgree_step r e h
      | cons e2 es => simp at hb

theorem errorsAgree_runRenders (s : State) (batches : List (List Event))
    (hb : ∀ b ∈ batches, b.length ≤ 1) (h : ErrorsAgree s) :
    ErrorsAgree (runRenders s batches) := by
  induction batches generalizing s with
  | nil => exact h
  | cons b bs ih =>
      exact ih (renderBatch s b) (fun c hc => hb c (List.mem_cons_of_mem b hc))
        (errorsAgree_renderBatch s b (hb b (List.mem_cons_self b bs)) h)

/-- Counterexample to C10: after the form is filled in, the submit handler and the
blur handler of the name input run from the same render. The submit resets
`formData`, the blur handler then stores the entries of the render it closed over,
with `name` mapped to the message for the old name: `errors.name` is present and
empty while the validator, on the current empty name, says "Name is required.". -/
theorem errors_stale_after_shared_render :
    (runRenders initialState staleSession).formData = initialFormData ∧
      (runRenders initialState staleSession).errors Field.name = some "" ∧
      validateField Field.name
          ((runRenders initialState staleSession).formData.get Field.name) =
        "Name is required." ∧
      ¬ ErrorsAgree (runRenders initialState staleSession) := by
  have h1 : (runRenders initialState staleSession).errors Field.name = some "" := by decide
  have h2 : validateField Field.name
      ((runRenders initialState staleSession).formData.get Field.name) =
        "Name is required." := by decide
  refine ⟨by decide, h1, h2, fun hA => ?_⟩
  have h3 := hA Field.name "" h1
  rw [h2] at h3
  exact absurd h3 (by decide)

/-- Claim C10, amended: in every state reached from the initial state by any
sequence of `handleChange`, `handleFileChange`, `handleBlur` and `handleSubmit`
events in which the component renders again after each event (no two handlers run
from the same render), every entry present in `errors` is the validator's message
for the current value of its field. -/
theorem errors_agree_render_per_event (batches : List (List Event))
    (hb : ∀ b ∈ batches, b.length ≤ 1) :
    ErrorsAgree (runRenders initialState batches) ∧
      ∀ (f : Field) (msg : String),
        ((runRenders initialState batches).errors f = some msg ↔
          (runRenders initialState batches).errors f ≠ none ∧
            msg = validateField f ((runRenders initialState batches).formData.get f)) := by
  have hI := errorsAgree_runRenders initialState batches hb errorsAgree_initialState
  refine ⟨hI, fun f msg => ⟨?_, ?_⟩⟩
  · intro h
    exact ⟨by rw [h]; exact Option.some_ne_none msg, hI f msg h⟩
  · rintro ⟨hne, hmsg⟩
    obtain ⟨m, hm⟩ := Option.ne_none_iff_exists'.mp hne
    rw [hm, hmsg, hI f m hm]

/-- Witness for the amended C10: a session rendered after each event ends with a
non-empty stored message for `pdf1`, which survives the later edit of the phone
number and still matches the selected file. -/
theorem errors_agree_render_per_event_witness :
    (∀ b ∈ sampleSession.map (fun e => [e]), b.length ≤ 1) ∧
      (runRenders initialState (sampleSession.map (fun e => [e]))).errors Field.pdf1 =
        some "Only PDF files are allowed." :=
  have hb : ∀ b ∈ sampleSession.map (fun e => [e]), b.length ≤ 1 := by decide
  ⟨hb,
    ((errors_agree_render_per_event (sampleSession.map (fun e => [e])) hb).2 Field.pdf1
      "Only PDF files are allowed.").mpr ⟨by decide, by decide⟩⟩

end ProposalForm
